import Mathlib

/-!
Verification of the Gherkin test runner (`gherkin-runner.py`).

The development shallowly embeds the runner's step-definition loader,
pattern matcher, shell-script executor and scenario/feature state machine.
Pure Python functions become Lean functions over `String` / `List Char`;
the external shell (`subprocess.run`) is an oracle parameter; Python dicts
(which preserve insertion order and keep a re-assigned key at its original
position) are association lists with an order-preserving insert.
-/

namespace GherkinRunner

/-! ## Character-list string utilities (Python `str` methods) -/

/-- Python `str.strip` on the front of a character list. -/
def chDropL (l : List Char) : List Char := l.dropWhile Char.isWhitespace

/-- Python `str.rstrip` as a character-list function. -/
def chRstrip (l : List Char) : List Char :=
  (l.reverse.dropWhile Char.isWhitespace).reverse

/-- Python `str.strip`: whitespace removed from both ends. -/
def chStrip (l : List Char) : List Char := chRstrip (chDropL l)

/-- Python `str.strip` at the `String` level. -/
def pyStrip (s : String) : String := String.mk (chStrip s.data)

/-- Python `str.rstrip` at the `String` level (used by `clean_script_content`). -/
def pyRstrip (s : String) : String := String.mk (chRstrip s.data)

/-- Is `pre` a prefix of `l`? (Python `str.startswith`.) -/
def chHasPrefix : List Char → List Char → Bool
  | [], _ => true
  | _ :: _, [] => false
  | p :: ps, c :: cs => p = c && chHasPrefix ps cs

/-- `normalize_line_endings`: CRLF and stray CR both become LF.  One pass of
this function agrees with the source's `replace('\r\n','\n').replace('\r','\n')`:
every CRLF pair collapses to one LF and every remaining CR becomes LF. -/
def normEol : List Char → List Char
  | [] => []
  | '\r' :: '\n' :: rest => '\n' :: normEol rest
  | '\r' :: rest => '\n' :: normEol rest
  | c :: rest => c :: normEol rest

/-- Python `text.split('\n')` (always returns at least one piece). -/
def splitNl : List Char → List (List Char)
  | [] => [[]]
  | '\n' :: rest => [] :: splitNl rest
  | c :: rest =>
    match splitNl rest with
    | [] => [[c]]
    | h :: t => (c :: h) :: t

/-- Python `'\n'.join(...)` on character lists. -/
def joinNl : List (List Char) → List Char
  | [] => []
  | [l] => l
  | l :: rest => l ++ '\n' :: joinNl rest

/-- Python `'\n'.join(...)` on strings (used where the loader joins the
collected script lines). -/
def joinLines (ls : List String) : String := String.mk (joinNl (ls.map String.data))

/-! ## Ordered dictionaries (Python `dict`)

A Python dict iterates in insertion order; assigning to an existing key
keeps the key at its original position and replaces the value. -/

/-- Lookup in an insertion-ordered dictionary. -/
def dictLookup (k : String) : List (String × α) → Option α
  | [] => none
  | (k', v) :: rest => if k' = k then some v else dictLookup k rest

/-- Python `k in d`. -/
def dictContains (k : String) (d : List (String × α)) : Bool :=
  (dictLookup k d).isSome

/-- Python `d[k] = v`: replaces in place when the key exists, appends
otherwise. -/
def dictInsert (k : String) (v : α) : List (String × α) → List (String × α)
  | [] => [(k, v)]
  | (k', v') :: rest =>
    if k' = k then (k, v) :: rest else (k', v') :: dictInsert k v rest

/-- Python `{**context, **variables}`: start from `context`, write every
binding of `variables` over it. -/
def pyMerge (context vars : List (String × String)) : List (String × String) :=
  vars.foldl (fun d kv => dictInsert kv.1 kv.2 d) context

/-! ## The regular-expression fragment used by step patterns

`run_step` matches each raw pattern with `re.match(f"^{pattern}$", text,
re.IGNORECASE)`.  The model covers the fragment the implementation patterns
use: literal characters, the lazy any-text capturing group `(.*?)` and the
optional one-character group `(c)?`.  A pattern outside the fragment is
treated like one the regex engine rejects (`re.error`), which `run_step`
skips. -/

/-- One token of a compiled pattern. -/
inductive RTok
  /-- A literal character (matched case-insensitively, as `re.IGNORECASE`). -/
  | lit (c : Char)
  /-- The lazy capturing group `(.*?)`. -/
  | grp
  /-- An optional one-character group `(c)?`; when it does not participate
  its capture is `none` (Python `None`). -/
  | optLit (c : Char)
deriving Repr, DecidableEq

/-- Parse a raw pattern string into tokens; `none` for patterns outside the
modelled fragment (treated like `re.error`). -/
def parsePattern : List Char → Option (List RTok)
  | [] => some []
  | '(' :: '.' :: '*' :: '?' :: ')' :: rest =>
    (parsePattern rest).map (RTok.grp :: ·)
  | '(' :: c :: ')' :: '?' :: rest =>
    if c ∈ ['(', ')', '[', ']', '\x7b', '\x7d', '*', '+', '?', '|', '^', '$', '\\', '.'] then
      none
    else (parsePattern rest).map (RTok.optLit c :: ·)
  | c :: rest =>
    if c ∈ ['(', ')', '[', ']', '\x7b', '\x7d', '*', '+', '?', '|', '^', '$', '\\', '.'] then
      none
    else (parsePattern rest).map (RTok.lit c :: ·)

/-- Anchored match of a token list against text, returning the ordered
captures (`none` for a group that did not participate).  The `(.*?)` group
is lazy: shorter captures are tried first, as `findSome?` over
`List.range` tries small counts first. -/
def rmatch : List RTok → List Char → Option (List (Option String))
  | [], [] => some []
  | [], _ :: _ => none
  | RTok.lit _ :: _, [] => none
  | RTok.lit c :: ts, d :: ds =>
    if c.toLower = d.toLower then rmatch ts ds else none
  | RTok.grp :: ts, ds =>
    (List.range (ds.length + 1)).findSome? fun n =>
      (rmatch ts (ds.drop n)).map fun caps => some (String.mk (ds.take n)) :: caps
  | RTok.optLit _ :: ts, [] => (rmatch ts []).map (none :: ·)
  | RTok.optLit c :: ts, d :: ds =>
    if c.toLower = d.toLower then
      match rmatch ts ds with
      | some caps => some (some (String.mk [d]) :: caps)
      | none => (rmatch ts (d :: ds)).map (none :: ·)
    else (rmatch ts (d :: ds)).map (none :: ·)

/-! ## Shell execution (`clean_script_content`, `execute_shell_script`)

`subprocess.run` is the external world: an oracle mapping the cleaned
script, the environment variables passed to it and the timeout to an
outcome.  `subprocess.TimeoutExpired` and other exceptions are outcomes of
the oracle; the source turns them into `CompletedProcess` values. -/

/-- What `subprocess.run` can do: complete with an exit code and output,
exceed the timeout, or raise some other exception. -/
inductive ShellOutcome
  | completed (returncode : Int) (stdout stderr : String)
  | timedOut
  | raised (msg : String)

/-- The external shell: cleaned script, environment variables, timeout. -/
def ShellOracle : Type := String → List (String × String) → Nat → ShellOutcome

/-- The fields of `subprocess.CompletedProcess` the runner reads. -/
structure ExecResult where
  returncode : Int
  stdout : String
  stderr : String
deriving Repr, DecidableEq

/-- `clean_script_content`: normalize line endings, drop a leading shebang
line, strip trailing whitespace from every line. -/
def clean_script_content (s : String) : String :=
  if s = "" then ""
  else
    let lines := splitNl (normEol s.data)
    let lines :=
      match lines with
      | l :: rest => if chHasPrefix ['#', '!'] (chStrip l) then rest else l :: rest
      | [] => []
    String.mk (joinNl (lines.map chRstrip))

/-- `execute_shell_script`: empty scripts fail without touching the shell;
variables override the inherited context in the environment; a timeout
becomes exit code 124 with a diagnostic on stderr; any other exception
becomes exit code 1. -/
def execute_shell_script (o : ShellOracle) (script : String)
    (vars context : List (String × String)) (timeout : Nat) : ExecResult :=
  let cleaned := clean_script_content script
  if pyStrip cleaned = "" then ⟨1, "", "Empty script content"⟩
  else
    match o cleaned (pyMerge context vars) timeout with
    | ShellOutcome.completed rc out err => ⟨rc, out, err⟩
    | ShellOutcome.timedOut =>
      ⟨124, "", "Script execution timed out after " ++ Nat.repr timeout ++ " seconds"⟩
    | ShellOutcome.raised m => ⟨1, "", "Error executing script: " ++ m⟩

/-! ## The implementation-file loader -/

/-- `re.match(r"^IMPLEMENTS\s+(.+?)$", line.strip())`, returning the
(stripped) captured pattern text: the stripped line must start with
`IMPLEMENTS`, followed by at least one whitespace character and a
non-empty remainder. -/
def parseImplements (line : String) : Option String :=
  let s := chStrip line.data
  if chHasPrefix ['I', 'M', 'P', 'L', 'E', 'M', 'E', 'N', 'T', 'S'] s then
    let rest := s.drop 10
    let rest' := rest.dropWhile Char.isWhitespace
    if rest'.length < rest.length ∧ rest' ≠ [] then
      some (String.mk (chStrip rest'))
    else none
  else none

/-- The loader's loop state: the dictionary built so far, the pattern text
of the open block (`current_step`) and its collected lines
(`current_script`). -/
structure LoadState where
  impls : List (String × String)
  currentStep : Option String
  currentScript : List String

/-- `if current_step and current_script:` — flush the open block into the
dictionary (Python truthiness: a non-empty pattern string and a non-empty
line list). -/
def flushBlock (st : LoadState) : List (String × String) :=
  match st.currentStep with
  | some s =>
    if s ≠ "" ∧ st.currentScript ≠ [] then
      dictInsert s (clean_script_content (joinLines st.currentScript)) st.impls
    else st.impls
  | none => st.impls

/-- One line of `load_implementation_file`'s loop: an `IMPLEMENTS` line
flushes the open block and opens a new one; any other line is appended to
the open block (there is no blank-line or comment handling). -/
def loadLine (st : LoadState) (line : String) : LoadState :=
  match parseImplements line with
  | some pat => ⟨flushBlock st, some pat, []⟩
  | none =>
    match st.currentStep with
    | some _ => { st with currentScript := st.currentScript ++ [line] }
    | none => st

/-- `load_implementation_file` on the file's (already normalized and split)
lines: fold the loop, then flush the last open block. -/
def load_implementation_file (lines : List String) : List (String × String) :=
  flushBlock (lines.foldl loadLine ⟨[], none, []⟩)

/-- `load_all_implementations`: merge every file's dictionary into one,
warning (second component) on a pattern already present from an earlier
file, the later script overwriting the earlier one. -/
def load_all_implementations (files : List (List String)) :
    List (String × String) × List String :=
  files.foldl
    (fun acc fileLines =>
      (load_implementation_file fileLines).foldl
        (fun dw kv =>
          (dictInsert kv.1 kv.2 dw.1,
           if dictContains kv.1 dw.1 then dw.2 ++ [kv.1] else dw.2))
        acc)
    ([], [])

/-! ## Step results and `run_step` -/

/-- The step statuses the runner produces. -/
inductive Status
  | passed
  | failed
  | skipped
  | undefined
deriving Repr, DecidableEq

/-- The result dictionary `run_step` builds (plus `skipped`, built by the
scenario loop); absent keys are `none`. -/
structure StepOutcome where
  status : Status
  output : Option String := none
  stdout : Option String := none
  stderr : Option String := none
  exit_code : Option Int := none
deriving Repr, DecidableEq

/-- `MATCH_1 .. MATCH_n` from the ordered captures;
`group if group is not None else ""`. -/
def mkMatchVars (i : Nat) : List (Option String) → List (String × String)
  | [] => []
  | g :: gs => ("MATCH_" ++ Nat.repr i, g.getD "") :: mkMatchVars (i + 1) gs

/-- The result dictionary built from a completed execution: `passed` iff
exit code 0; `output` keeps stderr for failing scripts with non-blank
stderr; empty stdout/stderr are recorded as absent (Python falsiness). -/
def execResultToOutcome (r : ExecResult) : StepOutcome :=
  { status := if r.returncode = 0 then Status.passed else Status.failed
    output := if r.returncode ≠ 0 ∧ pyStrip r.stderr ≠ "" then some r.stderr else none
    stdout := if r.stdout = "" then none else some r.stdout
    stderr := if r.stderr = "" then none else some r.stderr
    exit_code := some r.returncode }

/-- The loop of `run_step` over the implementations dictionary: compile the
pattern (skipping it on `re.error`), match the bare step text and then the
keyworded text, and execute the first match's script (default timeout 60). -/
def runStepGo (o : ShellOracle) (stepText fullText : String)
    (context : List (String × String)) : List (String × String) → StepOutcome
  | [] =>
    { status := Status.undefined
      output := some ("No implementation found for: " ++ fullText) }
  | (pat, script) :: rest =>
    match parsePattern pat.data with
    | none => runStepGo o stepText fullText context rest
    | some toks =>
      match
        (match rmatch toks stepText.data with
         | some caps => some caps
         | none => rmatch toks fullText.data) with
      | some caps =>
        execResultToOutcome
          (execute_shell_script o script (mkMatchVars 1 caps) context 60)
      | none => runStepGo o stepText fullText context rest

/-- `run_step`: `full_step_text = f"{step_keyword} {step_text}".strip()`,
then the loop over the implementations in insertion order. -/
def run_step (o : ShellOracle) (stepText stepKeyword : String)
    (implementations : List (String × String))
    (context : List (String × String)) : StepOutcome :=
  runStepGo o stepText (pyStrip (stepKeyword ++ " " ++ stepText)) context implementations

/-! ## The scenario/feature state machine (`run_gherkin_file`) -/

/-- A parsed step, as the external Gherkin parser hands it over. -/
structure GStep where
  keyword : String
  text : String

/-- A parsed scenario child of a feature. -/
structure GScenario where
  name : String
  steps : List GStep

/-- A parsed feature (children that are not scenarios contribute nothing to
the loop and are omitted). -/
structure GFeature where
  name : String
  children : List GScenario

/-- Scenario statuses. -/
inductive ScStatus
  | passed
  | failed
deriving Repr, DecidableEq

/-- A step's entry in a scenario's result list. -/
structure StepResult where
  keyword : String
  text : String
  outcome : StepOutcome
deriving Repr, DecidableEq

/-- A scenario's entry in the result tree. -/
structure ScenarioResult where
  name : String
  status : ScStatus
  steps : List StepResult
deriving Repr, DecidableEq

/-- The incrementally maintained `results['summary']` counters. -/
structure Summary where
  scTotal : Nat
  scPassed : Nat
  scFailed : Nat
  stTotal : Nat
  stPassed : Nat
  stFailed : Nat
  stSkipped : Nat
  stUndefined : Nat
deriving Repr, DecidableEq

/-- The all-zero summary `run_gherkin_file` starts from. -/
def zeroSummary : Summary := ⟨0, 0, 0, 0, 0, 0, 0, 0⟩

/-- The outcome record of a skipped step (`{'status': 'skipped'}` with only
keyword and text beside it). -/
def skippedOutcome : StepOutcome := { status := Status.skipped }

/-- The state of the step loop inside one scenario: the result list so
far, the `scenario_failed` flag, the `scenario_context` dictionary and the
global summary. -/
structure StepAcc where
  results : List StepResult
  failed : Bool
  ctx : List (String × String)
  summary : Summary

/-- One iteration of the step loop: count the step, emit a `skipped` result
without executing when the scenario already failed; otherwise run the step,
count its status, and on a passed step with recorded stdout store the
stripped stdout as `PREVIOUS_STEP_STDOUT` for later steps. -/
def processStep (o : ShellOracle) (implementations : List (String × String))
    (acc : StepAcc) (step : GStep) : StepAcc :=
  let summary := { acc.summary with stTotal := acc.summary.stTotal + 1 }
  let kw := pyStrip step.keyword
  if acc.failed then
    { acc with
      results := acc.results ++ [⟨kw, step.text, skippedOutcome⟩]
      summary := { summary with stSkipped := summary.stSkipped + 1 } }
  else
    let out := run_step o step.text kw implementations acc.ctx
    let sr : StepResult := ⟨kw, step.text, out⟩
    match out.status with
    | Status.passed =>
      let ctx' :=
        match out.stdout with
        | some s => dictInsert "PREVIOUS_STEP_STDOUT" (pyStrip s) acc.ctx
        | none => acc.ctx
      { acc with
        results := acc.results ++ [sr]
        ctx := ctx'
        summary := { summary with stPassed := summary.stPassed + 1 } }
    | Status.failed =>
      { acc with
        results := acc.results ++ [sr]
        failed := true
        summary := { summary with stFailed := summary.stFailed + 1 } }
    | Status.undefined =>
      { acc with
        results := acc.results ++ [sr]
        failed := true
        summary := { summary with stUndefined := summary.stUndefined + 1 } }
    | Status.skipped =>
      { acc with
        results := acc.results ++ [sr]
        failed := true
        summary := summary }

/-- One scenario: count it, run its steps from a fresh empty context with
the fail-fast flag down, then count the scenario by its final status
(`passed` unless some executed step did not pass). -/
def runScenario (o : ShellOracle) (implementations : List (String × String))
    (sc : GScenario) (summary : Summary) : ScenarioResult × Summary :=
  let summary := { summary with scTotal := summary.scTotal + 1 }
  let acc := sc.steps.foldl (processStep o implementations) ⟨[], false, [], summary⟩
  let status := if acc.failed then ScStatus.failed else ScStatus.passed
  let summary' :=
    if status = ScStatus.passed then
      { acc.summary with scPassed := acc.summary.scPassed + 1 }
    else
      { acc.summary with scFailed := acc.summary.scFailed + 1 }
  (⟨sc.name, status, acc.results⟩, summary')

/-- The feature loop: scenarios strictly in order, each appended to the
result list, the summary threaded through. -/
def run_feature (o : ShellOracle) (implementations : List (String × String))
    (f : GFeature) : List ScenarioResult × Summary :=
  f.children.foldl
    (fun acc sc =>
      let rs := runScenario o implementations sc acc.2
      (acc.1 ++ [rs.1], rs.2))
    ([], zeroSummary)

/-- What reading and parsing the feature file produced: a parsed feature,
or any exception on the way (unreadable file, Gherkin parse error, missing
`feature` key). -/
inductive ParseOutcome
  | parsed (f : GFeature)
  | failed (msg : String)

/-- `run_gherkin_file` either returns the result tree with its summary or,
when parsing raised, an error object with an empty summary. -/
inductive RunResults
  | ok (scenarios : List ScenarioResult) (summary : Summary)
  | error (msg : String)

/-- `run_gherkin_file` on an externally parsed document. -/
def run_gherkin_file (o : ShellOracle) (implementations : List (String × String)) :
    ParseOutcome → RunResults
  | ParseOutcome.parsed f =>
    let r := run_feature o implementations f
    RunResults.ok r.1 r.2
  | ParseOutcome.failed m => RunResults.error m

/-- `main`'s exit code: 1 when no implementation files were found, when no
implementations were loaded, when `run_gherkin_file` returned an error
object, or when some scenario failed; 0 otherwise. -/
def mainExitCode (o : ShellOracle) (files : List (List String))
    (doc : ParseOutcome) : Nat :=
  if files = [] then 1
  else
    let implementations := (load_all_implementations files).1
    if implementations = [] then 1
    else
      match run_gherkin_file o implementations doc with
      | RunResults.error _ => 1
      | RunResults.ok _ summary => if 0 < summary.scFailed then 1 else 0

/-! ## Spec-side definitions

These definitions follow the specification's words, to be compared with
the source-derived functions above. -/

/-- Following the spec's matcher description: for each definition in
registration order, attempt an anchored full match against the bare step
text and, only if that fails, against `"<keyword> <text>"`; return the
first definition matching either form with its ordered captures, a missing
capture group defaulting to the empty string; `none` when no definition
matches either form. -/
def matcherSpec (bare full : String) :
    List (String × String) → Option (String × List String)
  | [] => none
  | (pat, script) :: rest =>
    match parsePattern pat.data with
    | none => matcherSpec bare full rest
    | some toks =>
      match rmatch toks bare.data with
      | some caps => some (script, caps.map (fun g => g.getD ""))
      | none =>
        match rmatch toks full.data with
        | some caps => some (script, caps.map (fun g => g.getD ""))
        | none => matcherSpec bare full rest

/-- The spec's capture binding: the selected definition's ordered captures
exposed as `MATCH_1 .. MATCH_n`. -/
def specVars (i : Nat) : List String → List (String × String)
  | [] => []
  | v :: vs => ("MATCH_" ++ Nat.repr i, v) :: specVars (i + 1) vs

/-- Counting the step results of one status in a list. -/
def statusCount (st : Status) (rs : List StepResult) : Nat :=
  rs.countP (fun r => r.outcome.status == st)

/-- The spec's recomputation of the summary from the final result tree:
each count re-derived from the `ScenarioResult` list alone. -/
def recomputeSummary (scs : List ScenarioResult) : Summary :=
  let steps := (scs.map ScenarioResult.steps).flatten
  { scTotal := scs.length
    scPassed := scs.countP (fun s => s.status == ScStatus.passed)
    scFailed := scs.countP (fun s => s.status == ScStatus.failed)
    stTotal := steps.length
    stPassed := statusCount Status.passed steps
    stFailed := statusCount Status.failed steps
    stSkipped := statusCount Status.skipped steps
    stUndefined := statusCount Status.undefined steps }

/-! ## Helper lemmas about `run_step` -/

/-- `run_step` only ever reports `passed`, `failed` or `undefined`. -/
theorem runStepGo_status (o : ShellOracle) (t f : String)
    (ctx : List (String × String)) (impls : List (String × String)) :
    (runStepGo o t f ctx impls).status = Status.passed ∨
    (runStepGo o t f ctx impls).status = Status.failed ∨
    (runStepGo o t f ctx impls).status = Status.undefined := by
  induction impls with
  | nil => right; right; rfl
  | cons hd tl ih =>
    obtain ⟨pat, script⟩ := hd
    cases hp : parsePattern pat.data with
    | none => simpa [runStepGo, hp] using ih
    | some toks =>
      cases hm : (match rmatch toks t.data with
                  | some caps => some caps
                  | none => rmatch toks f.data) with
      | none => simpa [runStepGo, hp, hm] using ih
      | some caps =>
        simp only [runStepGo, hp, hm]
        by_cases h0 :
            (execute_shell_script o script (mkMatchVars 1 caps) ctx 60).returncode = 0
        · left; simp [execResultToOutcome, h0]
        · right; left; simp [execResultToOutcome, h0]

/-- `run_step` never reports `skipped`. -/
theorem run_step_status_ne_skipped (o : ShellOracle) (t k : String)
    (impls ctx : List (String × String)) :
    (run_step o t k impls ctx).status ≠ Status.skipped := by
  rcases runStepGo_status o t (pyStrip (k ++ " " ++ t)) ctx impls with h | h | h <;>
    simp [run_step, h]

/-- The recorded stdout of a step is never the empty string: an empty
stdout is recorded as absent (Python falsiness). -/
theorem run_step_stdout_ne_empty (o : ShellOracle) (t k : String)
    (impls ctx : List (String × String)) :
    (run_step o t k impls ctx).stdout ≠ some "" := by
  show (runStepGo o t (pyStrip (k ++ " " ++ t)) ctx impls).stdout ≠ some ""
  generalize pyStrip (k ++ " " ++ t) = f
  induction impls with
  | nil => simp [runStepGo]
  | cons hd tl ih =>
    obtain ⟨pat, script⟩ := hd
    cases hp : parsePattern pat.data with
    | none => simpa [runStepGo, hp] using ih
    | some toks =>
      cases hm : (match rmatch toks t.data with
                  | some caps => some caps
                  | none => rmatch toks f.data) with
      | none => simpa [runStepGo, hp, hm] using ih
      | some caps =>
        simp only [runStepGo, hp, hm]
        by_cases he :
            (execute_shell_script o script (mkMatchVars 1 caps) ctx 60).stdout = ""
        · simp [execResultToOutcome, he]
        · simp [execResultToOutcome, he]

/-- The source's `MATCH_n` binding is the spec's binding of the defaulted
captures. -/
theorem mkMatchVars_eq_specVars (i : Nat) (caps : List (Option String)) :
    mkMatchVars i caps = specVars i (caps.map (fun g => g.getD "")) := by
  induction caps generalizing i with
  | nil => rfl
  | cons hd tl ih => simp [mkMatchVars, specVars, ih]

/-- Inserting under one key leaves every other key's binding unchanged. -/
theorem dictLookup_insert_ne {α : Type} (k key : String) (v : α)
    (d : List (String × α)) (h : k ≠ key) :
    dictLookup k (dictInsert key v d) = dictLookup k d := by
  induction d with
  | nil =>
    simp only [dictInsert, dictLookup]
    rw [if_neg (fun hh => h hh.symm)]
  | cons hd tl ih =>
    obtain ⟨k', v'⟩ := hd
    by_cases h1 : k' = key
    · subst h1
      simp only [dictInsert, if_pos rfl, dictLookup]
      rw [if_neg (fun hh => h hh.symm), if_neg (fun hh => h hh.symm)]
    · simp only [dictInsert, if_neg h1, dictLookup]
      by_cases h2 : k' = k
      · rw [if_pos h2, if_pos h2]
      · rw [if_neg h2, if_neg h2, ih]

/-! ## Concrete shells used by closed evaluations -/

/-- A shell on which every script succeeds silently. -/
def oZero : ShellOracle := fun _ _ _ => ShellOutcome.completed 0 "" ""

/-- A shell that prints the executed script itself on stdout. -/
def oEchoScript : ShellOracle := fun s _ _ => ShellOutcome.completed 0 s ""

/-- A shell that prints the environment's `MATCH_1` on stdout
(the behaviour of the script `echo $MATCH_1`). -/
def oEchoMatch1 : ShellOracle :=
  fun _ env _ => ShellOutcome.completed 0 ((dictLookup "MATCH_1" env).getD "") ""

/-- A shell on which every script exceeds the timeout. -/
def oTimeout : ShellOracle := fun _ _ _ => ShellOutcome.timedOut

/-- A shell on which every script fails ordinarily (exit code 1). -/
def oFailing : ShellOracle := fun _ _ _ => ShellOutcome.completed 1 "" "boom"

/-! ## Claims about the matcher -/

/-- C3: `run_step` tries each definition in registration order, matching the
bare step text first and the keyworded text `"<keyword> <text>"` only when
the bare text fails, executes the first definition matching either form
with its ordered captures bound as `MATCH_1..MATCH_n` (a missing capture
group defaulting to the empty string), and reports `undefined` when no
definition matches either form.  Stated as: `run_step` equals the spec's
first-match selection (`matcherSpec`) followed by execution. -/
theorem run_step_matches_spec (o : ShellOracle) (stepText stepKeyword : String)
    (implementations context : List (String × String)) :
    run_step o stepText stepKeyword implementations context =
      match matcherSpec stepText (pyStrip (stepKeyword ++ " " ++ stepText)) implementations with
      | none =>
        { status := Status.undefined
          output := some ("No implementation found for: " ++
            pyStrip (stepKeyword ++ " " ++ stepText)) }
      | some (script, caps) =>
        execResultToOutcome (execute_shell_script o script (specVars 1 caps) context 60) := by
  show runStepGo o stepText (pyStrip (stepKeyword ++ " " ++ stepText)) context implementations = _
  generalize pyStrip (stepKeyword ++ " " ++ stepText) = full
  induction implementations with
  | nil => rfl
  | cons hd tl ih =>
    obtain ⟨pat, script⟩ := hd
    cases hp : parsePattern pat.data with
    | none => simpa [runStepGo, matcherSpec, hp] using ih
    | some toks =>
      cases hb : rmatch toks stepText.data with
      | some caps =>
        simp [runStepGo, matcherSpec, hp, hb, mkMatchVars_eq_specVars]
      | none =>
        cases hf : rmatch toks full.data with
        | some caps =>
          simp [runStepGo, matcherSpec, hp, hb, hf, mkMatchVars_eq_specVars]
        | none =>
          simpa [runStepGo, matcherSpec, hp, hb, hf] using ih

/-- C2 counterexample: no placeholder compilation happens.  With the
definition `IMPLEMENTS I have 'NUM' widgets`, the step text
`I have '5' widgets` matches nothing and comes back `undefined`, while the
explicitly written pattern `I have (.*?) widgets` does match it — and its
capture is `'5'` (quotes included), not `5`. -/
theorem c2_no_placeholder_compilation :
    (run_step oEchoMatch1 "I have '5' widgets" "Given"
        [("I have 'NUM' widgets", "echo $MATCH_1")] []).status = Status.undefined ∧
    run_step oEchoMatch1 "I have '5' widgets" "Given"
        [("I have (.*?) widgets", "echo $MATCH_1")] [] =
      { status := Status.passed, stdout := some "'5'", exit_code := some 0 } := by
  exact ⟨rfl, rfl⟩

/-- C2 amended: the raw pattern text is used verbatim as an anchored,
case-insensitive regular expression; no quoted-literal compilation occurs.
An author who wants a capture writes the group explicitly: the pattern
`I have '(.*?)' widgets` matches the step text `I have '5' widgets` for any
shell, keyword, script and context, binding the capture `5` as `MATCH_1`
in the executed script's environment. -/
theorem c2_amended_verbatim_pattern (o : ShellOracle) (script kw : String)
    (context : List (String × String)) :
    run_step o "I have '5' widgets" kw [("I have '(.*?)' widgets", script)] context =
      execResultToOutcome (execute_shell_script o script [("MATCH_1", "5")] context 60) := by
  rfl

/-! ## Claims about the loader -/

/-- Folding lines that are not `IMPLEMENTS` lines while a block is open
just appends them to the open block. -/
theorem foldl_loadLine_no_implements (ls : List String) (d : List (String × String))
    (p : String) (cs : List String) (hall : ∀ l ∈ ls, parseImplements l = none) :
    ls.foldl loadLine ⟨d, some p, cs⟩ = ⟨d, some p, cs ++ ls⟩ := by
  induction ls generalizing cs with
  | nil => simp
  | cons l ls ih =>
    have hl : parseImplements l = none := hall l (by simp)
    have hrest : ∀ x ∈ ls, parseImplements x = none := fun x hx => hall x (by simp [hx])
    simp only [List.foldl_cons, loadLine, hl]
    rw [ih (cs ++ [l]) hrest]
    simp

/-- C7 counterexample: a blank line does not end a script block.  In the
file `IMPLEMENTS p` / `a` / (blank) / `b`, the loaded script for `p` is
`"a\n\nb"` — the blank line and the line after it are kept — not `"a"` as
a blank-line terminator would give. -/
theorem c7_block_not_ended_by_blank :
    load_implementation_file ["IMPLEMENTS p", "a", "", "b"] = [("p", "a\n\nb")] ∧
    ("a\n\nb" : String) ≠ "a" := by
  exact ⟨rfl, by decide⟩

/-- A file made of one `IMPLEMENTS` header followed by non-`IMPLEMENTS`
lines loads as that single definition with all the following lines — blank
and comment lines included — as its script. -/
theorem load_single_block (hdr pat : String) (ls : List String)
    (hp : parseImplements hdr = some pat) (hpat : pat ≠ "")
    (hall : ∀ l ∈ ls, parseImplements l = none) (hne : ls ≠ []) :
    load_implementation_file (hdr :: ls) = [(pat, clean_script_content (joinLines ls))] := by
  show flushBlock ((hdr :: ls).foldl loadLine ⟨[], none, []⟩) = _
  simp only [List.foldl_cons, loadLine, hp]
  rw [show flushBlock ⟨[], none, []⟩ = [] from rfl]
  rw [foldl_loadLine_no_implements ls [] pat [] hall]
  simp [flushBlock, hpat, hne, dictInsert]

/-- C7 amended: a definition's script block ends only at the next
`IMPLEMENTS` line or at end of file; every line in between — blank lines
and comment lines included — is kept and concatenated (through
`clean_script_content`: trailing whitespace stripped per line and a leading
shebang line removed); a block that ends with no lines at all is
discarded. -/
theorem c7_amended_block_runs_to_next_implements (hdr pat : String) (ls : List String)
    (hp : parseImplements hdr = some pat) (hpat : pat ≠ "")
    (hall : ∀ l ∈ ls, parseImplements l = none) (hne : ls ≠ []) :
    load_implementation_file (hdr :: ls) = [(pat, clean_script_content (joinLines ls))] :=
  load_single_block hdr pat ls hp hpat hall hne

/-- C7 amended, witness: the file `IMPLEMENTS p` / `a` / (blank) /
`# note` / `b` loads the single definition `p` with the blank line and the
comment line kept inside the script. -/
theorem c7_amended_witness :
    load_implementation_file ["IMPLEMENTS p", "a", "", "# note", "b"] =
      [("p", clean_script_content (joinLines ["a", "", "# note", "b"]))] :=
  c7_amended_block_runs_to_next_implements "IMPLEMENTS p" "p" ["a", "", "# note", "b"]
    (by decide) (by decide) (by decide) (by decide)

/-- C6 counterexample: with the same pattern `p` defined in two files
(`echo one` first, `echo two` second), loading warns but keeps only the
later definition, and a step matching `p` executes `echo two` — not the
script of the definition registered first. -/
theorem c6_duplicate_keeps_last :
    load_all_implementations [["IMPLEMENTS p", "echo one"], ["IMPLEMENTS p", "echo two"]] =
      ([("p", "echo two")], ["p"]) ∧
    (run_step oEchoScript "p" "Given"
        (load_all_implementations
          [["IMPLEMENTS p", "echo one"], ["IMPLEMENTS p", "echo two"]]).1 []).stdout =
      some "echo two" ∧
    ("echo two" : String) ≠ "echo one" := by
  exact ⟨rfl, rfl, by decide⟩

/-- C6 amended: a duplicate pattern across implementation files produces
the non-fatal warning, but the dictionary keeps only one definition per
pattern text: the later script overwrites the earlier one (at the earlier
position), so the matcher's first-match-wins rule never sees both and a
matching step executes the script of the definition registered last.
(Inside a single file the overwrite happens silently, with no warning.) -/
theorem c6_amended_duplicate_overwrites (pat l1 l2 : String)
    (hp : parseImplements ("IMPLEMENTS " ++ pat) = some pat) (hpat : pat ≠ "")
    (h1 : parseImplements l1 = none) (h2 : parseImplements l2 = none) :
    load_all_implementations [["IMPLEMENTS " ++ pat, l1], ["IMPLEMENTS " ++ pat, l2]] =
      ([(pat, clean_script_content l2)], [pat]) := by
  have hf1 : load_implementation_file ["IMPLEMENTS " ++ pat, l1] =
      [(pat, clean_script_content l1)] := by
    have h := load_single_block ("IMPLEMENTS " ++ pat) pat [l1]
      hp hpat (by simpa using h1) (by simp)
    simpa [joinLines, joinNl] using h
  have hf2 : load_implementation_file ["IMPLEMENTS " ++ pat, l2] =
      [(pat, clean_script_content l2)] := by
    have h := load_single_block ("IMPLEMENTS " ++ pat) pat [l2]
      hp hpat (by simpa using h2) (by simp)
    simpa [joinLines, joinNl] using h
  show List.foldl _ ([], []) [["IMPLEMENTS " ++ pat, l1], ["IMPLEMENTS " ++ pat, l2]] = _
  simp only [List.foldl_cons, List.foldl_nil, hf1, hf2]
  simp [dictContains, dictLookup, dictInsert]

/-- C6 amended, witness: the pattern `p` defined as `echo one` in one file
and `echo two` in a later file loads as the single definition `echo two`
with the duplicate warning recorded. -/
theorem c6_amended_witness :
    load_all_implementations [["IMPLEMENTS p", "echo one"], ["IMPLEMENTS p", "echo two"]] =
      ([("p", clean_script_content "echo two")], ["p"]) :=
  c6_amended_duplicate_overwrites "p" "echo one" "echo two"
    (by decide) (by decide) (by decide) (by decide)

/-! ## Claims about the executor (timeout handling) -/

/-- C5 counterexample: a timed-out script and an ordinarily failing script
produce the very same step status, `failed` — there is no distinguished
timeout status in the result. -/
theorem c5_timeout_status_is_failed :
    (run_step oTimeout "ok" "Given" [("ok", "echo x")] []).status = Status.failed ∧
    (run_step oFailing "ok" "Given" [("ok", "echo x")] []).status = Status.failed := by
  exact ⟨rfl, rfl⟩

/-- C5 amended: when the matched script's execution exceeds the timeout,
the process result is synthesized with exit code 124 and the diagnostic
`Script execution timed out after 60 seconds` on stderr, and the step
result has status `failed` — treated exactly as a failure for scenario
purposes, not `undefined`, and distinguishable from an ordinary failure
only through its exit code and stderr text, not through its status. -/
theorem c5_amended_timeout_failed_124 (o : ShellOracle) (txt kw pat script : String)
    (context : List (String × String)) (toks : List RTok) (caps : List (Option String))
    (hp : parsePattern pat.data = some toks)
    (hm : rmatch toks txt.data = some caps)
    (hne : pyStrip (clean_script_content script) ≠ "")
    (hto : o (clean_script_content script) (pyMerge context (mkMatchVars 1 caps)) 60 =
      ShellOutcome.timedOut) :
    run_step o txt kw [(pat, script)] context =
      { status := Status.failed
        output := some "Script execution timed out after 60 seconds"
        stdout := none
        stderr := some "Script execution timed out after 60 seconds"
        exit_code := some 124 } := by
  show runStepGo o txt (pyStrip (kw ++ " " ++ txt)) context [(pat, script)] = _
  simp only [runStepGo, hp, hm]
  rw [show execute_shell_script o script (mkMatchVars 1 caps) context 60 =
      ⟨124, "", "Script execution timed out after 60 seconds"⟩ by
    simp only [execute_shell_script, hne, if_neg (by simpa using hne), hto]
    rfl]
  rfl

/-- C5 amended, witness: on a shell where every script times out, the step
`ok` matched by the definition `ok` / `echo x` comes back `failed` with
exit code 124 and the timeout diagnostic. -/
theorem c5_amended_witness :
    run_step oTimeout "ok" "Given" [("ok", "echo x")] [] =
      { status := Status.failed
        output := some "Script execution timed out after 60 seconds"
        stdout := none
        stderr := some "Script execution timed out after 60 seconds"
        exit_code := some 124 } :=
  c5_amended_timeout_failed_124 oTimeout "ok" "Given" "ok" "echo x" []
    [RTok.lit 'o', RTok.lit 'k'] [] rfl rfl (by decide) rfl

/-! ## The scenario loop's accounting -/

/-- The summary increments one step of a given status contributes. -/
def bump (st : Status) (s : Summary) : Summary :=
  match st with
  | Status.passed => { s with stTotal := s.stTotal + 1, stPassed := s.stPassed + 1 }
  | Status.failed => { s with stTotal := s.stTotal + 1, stFailed := s.stFailed + 1 }
  | Status.skipped => { s with stTotal := s.stTotal + 1, stSkipped := s.stSkipped + 1 }
  | Status.undefined => { s with stTotal := s.stTotal + 1, stUndefined := s.stUndefined + 1 }

/-- The summary increments contributed by a list of step results. -/
def bumpAll (rs : List StepResult) (s : Summary) : Summary :=
  rs.foldl (fun s r => bump r.outcome.status s) s

/-- One loop iteration appends exactly one step result, counts it under its
status, raises the fail-fast flag exactly when the result did not pass, and
emits the bare `skipped` record (without executing) when the flag was
already up, the `run_step` result otherwise. -/
theorem processStep_eq (o : ShellOracle) (impls : List (String × String))
    (acc : StepAcc) (step : GStep) :
    ∃ r : StepResult,
      (processStep o impls acc step).results = acc.results ++ [r] ∧
      (processStep o impls acc step).summary = bump r.outcome.status acc.summary ∧
      (processStep o impls acc step).failed =
        (acc.failed || !(r.outcome.status == Status.passed)) ∧
      r.keyword = pyStrip step.keyword ∧ r.text = step.text ∧
      (acc.failed = true → r.outcome = skippedOutcome) ∧
      (acc.failed = false →
        r.outcome = run_step o step.text (pyStrip step.keyword) impls acc.ctx) := by
  cases hf : acc.failed with
  | true =>
    refine ⟨⟨pyStrip step.keyword, step.text, skippedOutcome⟩, ?_, ?_, ?_, rfl, rfl,
      fun _ => rfl, fun h => Bool.noConfusion h⟩
    · simp [processStep, hf]
    · simp [processStep, hf, bump, skippedOutcome]
    · simp [processStep, hf]
  | false =>
    refine ⟨⟨pyStrip step.keyword, step.text,
      run_step o step.text (pyStrip step.keyword) impls acc.ctx⟩, ?_, ?_, ?_, rfl, rfl,
      fun h => Bool.noConfusion h, fun _ => rfl⟩ <;>
    · rcases runStepGo_status o step.text (pyStrip (pyStrip step.keyword ++ " " ++ step.text))
          acc.ctx impls with hs | hs | hs <;>
        simp [processStep, hf, run_step, bump, hs]

/-- The step loop appends its new results and counts exactly them. -/
theorem foldSteps_results_summary (o : ShellOracle) (impls : List (String × String))
    (steps : List GStep) (acc : StepAcc) :
    ∃ new : List StepResult,
      (steps.foldl (processStep o impls) acc).results = acc.results ++ new ∧
      (steps.foldl (processStep o impls) acc).summary = bumpAll new acc.summary := by
  induction steps generalizing acc with
  | nil => exact ⟨[], by simp, rfl⟩
  | cons s ss ih =>
    obtain ⟨r, hres, hsum, -, -, -, -, -⟩ := processStep_eq o impls acc s
    obtain ⟨new, hres', hsum'⟩ := ih (processStep o impls acc s)
    refine ⟨r :: new, ?_, ?_⟩
    · simp only [List.foldl_cons, hres', hres, List.append_assoc, List.singleton_append]
    · show (ss.foldl (processStep o impls) (processStep o impls acc s)).summary = _
      rw [hsum', hsum]
      rfl

/-- `bumpAll` adds, component by component, the length and per-status
counts of the new results. -/
theorem bumpAll_counts (rs : List StepResult) (s : Summary) :
    bumpAll rs s =
      { scTotal := s.scTotal, scPassed := s.scPassed, scFailed := s.scFailed
        stTotal := s.stTotal + rs.length
        stPassed := s.stPassed + statusCount Status.passed rs
        stFailed := s.stFailed + statusCount Status.failed rs
        stSkipped := s.stSkipped + statusCount Status.skipped rs
        stUndefined := s.stUndefined + statusCount Status.undefined rs } := by
  induction rs generalizing s with
  | nil => simp [bumpAll, statusCount]
  | cons r rs ih =>
    rw [show bumpAll (r :: rs) s = bumpAll rs (bump r.outcome.status s) from rfl, ih]
    cases hst : r.outcome.status <;>
      simp [bump, statusCount, List.countP_cons, hst] <;> omega

/-- The summary increments contributed by one finished scenario. -/
def scBump (res : ScenarioResult) (s : Summary) : Summary :=
  let s1 := bumpAll res.steps { s with scTotal := s.scTotal + 1 }
  if res.status = ScStatus.passed then { s1 with scPassed := s1.scPassed + 1 }
  else { s1 with scFailed := s1.scFailed + 1 }

/-- One scenario's run adds exactly its own counts to the summary. -/
theorem runScenario_summary (o : ShellOracle) (impls : List (String × String))
    (sc : GScenario) (summary : Summary) :
    (runScenario o impls sc summary).2 =
      scBump (runScenario o impls sc summary).1 summary := by
  obtain ⟨new, hres, hsum⟩ := foldSteps_results_summary o impls sc.steps
    ⟨[], false, [], { summary with scTotal := summary.scTotal + 1 }⟩
  simp only [List.nil_append] at hres
  unfold runScenario
  cases hf : (List.foldl (processStep o impls)
      ⟨[], false, [], { summary with scTotal := summary.scTotal + 1 }⟩ sc.steps).failed <;>
    simp_all [scBump]

/-- The spec's recomputation over an extended result list equals the
incremental scenario increment. -/
theorem recompute_append (scs : List ScenarioResult) (res : ScenarioResult) :
    recomputeSummary (scs ++ [res]) = scBump res (recomputeSummary scs) := by
  cases hst : res.status <;>
    simp [recomputeSummary, scBump, bumpAll_counts, statusCount, hst,
      List.countP_append, List.countP_cons]

/-- The feature loop maintains `summary = recomputeSummary scenarios`. -/
theorem foldScenarios_inv (o : ShellOracle) (impls : List (String × String))
    (children : List GScenario) (acc : List ScenarioResult × Summary)
    (hinv : acc.2 = recomputeSummary acc.1) :
    (children.foldl
      (fun acc sc =>
        let rs := runScenario o impls sc acc.2
        (acc.1 ++ [rs.1], rs.2)) acc).2 =
      recomputeSummary (children.foldl
        (fun acc sc =>
          let rs := runScenario o impls sc acc.2
          (acc.1 ++ [rs.1], rs.2)) acc).1 := by
  induction children generalizing acc with
  | nil => simpa using hinv
  | cons sc scs ih =>
    simp only [List.foldl_cons]
    apply ih
    show (runScenario o impls sc acc.2).2 = recomputeSummary (acc.1 ++ [_])
    rw [recompute_append, ← hinv]
    exact runScenario_summary o impls sc acc.2

/-- The final summary equals the recomputation over the final tree. -/
theorem run_feature_summary (o : ShellOracle) (impls : List (String × String))
    (f : GFeature) :
    (run_feature o impls f).2 = recomputeSummary (run_feature o impls f).1 := by
  unfold run_feature
  exact foldScenarios_inv o impls f.children ([], zeroSummary)
    (by simp [recomputeSummary, zeroSummary, statusCount])

/-- Step results split into exactly one status each. -/
theorem statusCount_partition (rs : List StepResult) :
    rs.length = statusCount Status.passed rs + statusCount Status.failed rs +
      statusCount Status.skipped rs + statusCount Status.undefined rs := by
  induction rs with
  | nil => simp [statusCount]
  | cons r rs ih =>
    cases hst : r.outcome.status <;>
      simp [statusCount, List.countP_cons, hst] at ih ⊢ <;> omega

/-- Scenario results split into passed and failed. -/
theorem scStatus_partition (scs : List ScenarioResult) :
    scs.length = scs.countP (fun s => s.status == ScStatus.passed) +
      scs.countP (fun s => s.status == ScStatus.failed) := by
  induction scs with
  | nil => simp
  | cons sc scs ih =>
    cases hst : sc.status <;> simp [List.countP_cons, hst] at ih ⊢ <;> omega

/-- C9: the incrementally accumulated summary equals the counts recomputed
from the final result tree — `scTotal` is the number of scenario results,
`scPassed`/`scFailed` count scenarios by status, `stTotal` the step results
across all scenarios and each per-status step counter exactly the step
results of that status — and every step (resp. scenario) is counted under
exactly one status, the four step counters (resp. two scenario counters)
summing to the total. -/
theorem summary_recomputable (o : ShellOracle) (impls : List (String × String))
    (f : GFeature) :
    (run_feature o impls f).2 = recomputeSummary (run_feature o impls f).1 ∧
    (run_feature o impls f).2.stTotal =
      (run_feature o impls f).2.stPassed + (run_feature o impls f).2.stFailed +
      (run_feature o impls f).2.stSkipped + (run_feature o impls f).2.stUndefined ∧
    (run_feature o impls f).2.scTotal =
      (run_feature o impls f).2.scPassed + (run_feature o impls f).2.scFailed := by
  refine ⟨run_feature_summary o impls f, ?_, ?_⟩ <;>
    rw [run_feature_summary o impls f]
  · exact statusCount_partition _
  · exact scStatus_partition _

/-! ## Fail-fast semantics -/

/-- Invariant of the step loop: the fail-fast flag is down exactly while
every emitted result passed, and once it is up some emitted result did not
pass. -/
theorem foldSteps_status_inv (o : ShellOracle) (impls : List (String × String))
    (steps : List GStep) (acc : StepAcc)
    (h1 : acc.failed = false → ∀ r ∈ acc.results, r.outcome.status = Status.passed)
    (h2 : acc.failed = true → ∃ r ∈ acc.results, r.outcome.status ≠ Status.passed) :
    ((steps.foldl (processStep o impls) acc).failed = false →
      ∀ r ∈ (steps.foldl (processStep o impls) acc).results,
        r.outcome.status = Status.passed) ∧
    ((steps.foldl (processStep o impls) acc).failed = true →
      ∃ r ∈ (steps.foldl (processStep o impls) acc).results,
        r.outcome.status ≠ Status.passed) := by
  induction steps generalizing acc with
  | nil => exact ⟨h1, h2⟩
  | cons s ss ih =>
    obtain ⟨r, hres, -, hfail, -, -, -, -⟩ := processStep_eq o impls acc s
    simp only [List.foldl_cons]
    apply ih
    · intro hf
      rw [hfail] at hf
      rcases Bool.or_eq_false_iff.1 hf with ⟨haf, hrp⟩
      have hrp' : r.outcome.status = Status.passed := by
        simpa using hrp
      intro x hx
      rw [hres] at hx
      rcases List.mem_append.1 hx with hx | hx
      · exact h1 haf x hx
      · rw [List.mem_singleton.1 hx]; exact hrp'
    · intro hf
      rw [hfail] at hf
      cases haf : acc.failed with
      | true =>
        obtain ⟨x, hx, hne⟩ := h2 haf
        exact ⟨x, by rw [hres]; exact List.mem_append_left _ hx, hne⟩
      | false =>
        rw [haf, Bool.false_or] at hf
        have hne : r.outcome.status ≠ Status.passed := by
          simpa using hf
        exact ⟨r, by rw [hres]; exact List.mem_append_right _ (List.mem_singleton.2 rfl), hne⟩

/-- A scenario's status is `passed` iff every one of its step results
passed. -/
theorem runScenario_status_iff (o : ShellOracle) (impls : List (String × String))
    (sc : GScenario) (summary : Summary) :
    ((runScenario o impls sc summary).1.status = ScStatus.passed) ↔
      ∀ r ∈ (runScenario o impls sc summary).1.steps,
        r.outcome.status = Status.passed := by
  obtain ⟨hp, hf⟩ := foldSteps_status_inv o impls sc.steps
    ⟨[], false, [], { summary with scTotal := summary.scTotal + 1 }⟩
    (by intro _ r hr; cases hr) (by intro h; cases h)
  unfold runScenario
  cases hfl : (List.foldl (processStep o impls)
      ⟨[], false, [], { summary with scTotal := summary.scTotal + 1 }⟩ sc.steps).failed with
  | false =>
    simp only [hfl, if_false, Bool.false_eq_true]
    constructor
    · intro _; exact hp hfl
    · intro _; simp
  | true =>
    simp only [hfl, if_true]
    constructor
    · intro h; cases h
    · intro hall
      obtain ⟨x, hx, hne⟩ := hf hfl
      exact absurd (hall x hx) hne

/-- C4: a scenario's recorded status (including for a scenario with zero
steps, which is `passed` vacuously) is `passed` if and only if every one of
its step results has status `passed`. -/
theorem scenario_passed_iff_all_steps_passed (o : ShellOracle)
    (impls : List (String × String)) (sc : GScenario) (summary : Summary) :
    ((runScenario o impls sc summary).1.status = ScStatus.passed) ↔
      ∀ r ∈ (runScenario o impls sc summary).1.steps,
        r.outcome.status = Status.passed :=
  runScenario_status_iff o impls sc summary

/-- Once the fail-fast flag is up, the rest of the steps are emitted as
bare `skipped` results, without execution. -/
theorem foldSteps_failed_skips (o : ShellOracle) (impls : List (String × String))
    (steps : List GStep) (acc : StepAcc) (h : acc.failed = true) :
    (steps.foldl (processStep o impls) acc).results =
      acc.results ++
        steps.map (fun st => ⟨pyStrip st.keyword, st.text, skippedOutcome⟩) := by
  induction steps generalizing acc with
  | nil => simp
  | cons s ss ih =>
    have h1 : (processStep o impls acc s).results =
        acc.results ++ [⟨pyStrip s.keyword, s.text, skippedOutcome⟩] := by
      simp [processStep, h]
    have h2 : (processStep o impls acc s).failed = true := by
      simp [processStep, h]
    simp only [List.foldl_cons, List.map_cons]
    rw [ih (processStep o impls acc s) h2, h1]
    simp

/-- In a list shaped `passed* ++ [b] ++ skipped*`, everything after a
`failed` or `undefined` element is a skipped result. -/
theorem append_bad_tail_skipped (A : List StepResult) (b : StepResult)
    (C : List StepResult)
    (hA : ∀ x ∈ A, x.outcome.status = Status.passed)
    (hC : ∀ x ∈ C, x.outcome = skippedOutcome) :
    ∀ pre r post, A ++ b :: C = pre ++ r :: post →
      (r.outcome.status = Status.failed ∨ r.outcome.status = Status.undefined) →
      ∀ x ∈ post, x.outcome = skippedOutcome := by
  revert hA
  induction A with
  | nil =>
    intro hA pre r post heq hbad x hx
    cases pre with
    | nil =>
      simp only [List.nil_append, List.cons.injEq] at heq
      exact hC x (heq.2 ▸ hx)
    | cons p pre' =>
      simp only [List.nil_append, List.cons_append, List.cons.injEq] at heq
      exact hC x (by rw [heq.2]; exact List.mem_append_right _ (List.mem_cons_of_mem _ hx))
  | cons a A' ih =>
    intro hA pre r post heq hbad x hx
    cases pre with
    | nil =>
      simp only [List.cons_append, List.nil_append, List.cons.injEq] at heq
      have hap : a.outcome.status = Status.passed := hA a (by simp)
      rw [heq.1] at hap
      rcases hbad with hb | hb <;> rw [hap] at hb <;> cases hb
    | cons p pre' =>
      simp only [List.cons_append, List.cons.injEq] at heq
      exact ih (fun y hy => hA y (List.mem_cons_of_mem _ hy)) pre' r post heq.2 hbad x hx

/-- From a clean accumulator, everything after a `failed` or `undefined`
result in the loop's output is a skipped result. -/
theorem foldSteps_skip_after_bad (o : ShellOracle) (impls : List (String × String))
    (steps : List GStep) (acc : StepAcc) (hf : acc.failed = false)
    (hall : ∀ x ∈ acc.results, x.outcome.status = Status.passed) :
    ∀ pre r post, (steps.foldl (processStep o impls) acc).results = pre ++ r :: post →
      (r.outcome.status = Status.failed ∨ r.outcome.status = Status.undefined) →
      ∀ x ∈ post, x.outcome = skippedOutcome := by
  induction steps generalizing acc with
  | nil =>
    intro pre r post heq hbad x hx
    have hr : r ∈ acc.results := by
      rw [List.foldl_nil] at heq
      rw [heq]
      exact List.mem_append_right _ (List.mem_cons_self r post)
    have := hall r hr
    rcases hbad with hb | hb <;> rw [this] at hb <;> cases hb
  | cons s ss ih =>
    intro pre r post heq hbad x hx
    obtain ⟨r0, hres, -, hfail, -, -, -, hout⟩ := processStep_eq o impls acc s
    rw [List.foldl_cons] at heq
    have hout' : r0.outcome = run_step o s.text (pyStrip s.keyword) impls acc.ctx := hout hf
    rcases runStepGo_status o s.text (pyStrip (pyStrip s.keyword ++ " " ++ s.text))
        acc.ctx impls with hs | hs | hs
    · have hfl : (processStep o impls acc s).failed = false := by
        rw [hfail, hf, Bool.false_or, hout', run_step, hs]
        rfl
      have hallnew : ∀ y ∈ (processStep o impls acc s).results,
          y.outcome.status = Status.passed := by
        intro y hy
        rw [hres] at hy
        rcases List.mem_append.1 hy with hy | hy
        · exact hall y hy
        · rw [List.mem_singleton.1 hy, hout', run_step]; exact hs
      exact ih (processStep o impls acc s) hfl hallnew pre r post heq hbad x hx
    all_goals
      have hfl : (processStep o impls acc s).failed = true := by
        rw [hfail, hf, Bool.false_or, hout', run_step, hs]
        rfl
    all_goals
      rw [foldSteps_failed_skips o impls ss _ hfl, hres, List.append_assoc,
        List.singleton_append] at heq
      refine append_bad_tail_skipped acc.results r0 _ hall ?_ pre r post heq hbad x hx
      intro y hy
      obtain ⟨st, -, rfl⟩ := List.mem_map.1 hy
      rfl

/-- C1: once some step result in a scenario has status `failed` or
`undefined` (a timed-out script surfaces as `failed`), every later step
result in that scenario is the bare `skipped` record — status `skipped`
with no output, stdout, stderr or exit code, its script never having been
handed to the shell. -/
theorem steps_after_failure_skipped (o : ShellOracle) (impls : List (String × String))
    (sc : GScenario) (summary : Summary) (pre : List StepResult) (r : StepResult)
    (post : List StepResult)
    (hdec : (runScenario o impls sc summary).1.steps = pre ++ r :: post)
    (hbad : r.outcome.status = Status.failed ∨ r.outcome.status = Status.undefined) :
    ∀ x ∈ post, x.outcome = skippedOutcome :=
  foldSteps_skip_after_bad o impls sc.steps
    ⟨[], false, [], { summary with scTotal := summary.scTotal + 1 }⟩ rfl
    (by intro x hx; cases hx) pre r post hdec hbad

/-- C1 witness: in a two-step scenario whose first step is `undefined`
(no implementations at all), the second step's result is the bare
`skipped` record. -/
theorem steps_after_failure_skipped_witness :
    (⟨"Then", "b", skippedOutcome⟩ : StepResult).outcome = skippedOutcome :=
  steps_after_failure_skipped oZero [] ⟨"s", [⟨"Given ", "a"⟩, ⟨"Then ", "b"⟩]⟩
    zeroSummary []
    ⟨"Given", "a",
      { status := Status.undefined
        output := some "No implementation found for: Given a" }⟩
    [⟨"Then", "b", skippedOutcome⟩] rfl (Or.inr rfl)
    ⟨"Then", "b", skippedOutcome⟩ (List.mem_singleton.2 rfl)

/-! ## Context threading -/

/-- The context update C10 describes: unchanged for a skipped-over step;
after an executed step, `PREVIOUS_STEP_STDOUT` is set to the stripped
stdout exactly when the step passed with recorded (hence non-empty) stdout,
and the context is left untouched in every other case. -/
def nextCtx (out : StepOutcome) (failed : Bool) (ctx : List (String × String)) :
    List (String × String) :=
  if failed then ctx
  else
    match out.status, out.stdout with
    | Status.passed, some s => dictInsert "PREVIOUS_STEP_STDOUT" (pyStrip s) ctx
    | _, _ => ctx

/-- C10: within a scenario the only inherited-context variable ever set is
`PREVIOUS_STEP_STDOUT`.  A step's recorded stdout is never the empty
string; the loop's context evolves exactly by `nextCtx` — after a passed
step with recorded stdout, `PREVIOUS_STEP_STDOUT` becomes that stdout
stripped of surrounding whitespace, while a passed step with empty
(unrecorded) stdout, a failed/undefined step or a skipped step leaves the
context completely unchanged, so `PREVIOUS_STEP_STDOUT` keeps the stdout of
the earlier passed step — and every key other than `PREVIOUS_STEP_STDOUT`
looks up unchanged. -/
theorem context_only_previous_stdout (o : ShellOracle)
    (impls : List (String × String)) (acc : StepAcc) (step : GStep) :
    (run_step o step.text (pyStrip step.keyword) impls acc.ctx).stdout ≠ some "" ∧
    (processStep o impls acc step).ctx =
      nextCtx (run_step o step.text (pyStrip step.keyword) impls acc.ctx)
        acc.failed acc.ctx ∧
    ∀ k : String, k = "PREVIOUS_STEP_STDOUT" ∨
      dictLookup k (processStep o impls acc step).ctx = dictLookup k acc.ctx := by
  have hctx : (processStep o impls acc step).ctx =
      nextCtx (run_step o step.text (pyStrip step.keyword) impls acc.ctx)
        acc.failed acc.ctx := by
    cases hf : acc.failed with
    | true => simp [processStep, hf, nextCtx]
    | false =>
      rcases runStepGo_status o step.text (pyStrip (pyStrip step.keyword ++ " " ++ step.text))
          acc.ctx impls with hs | hs | hs
      · cases hst : (run_step o step.text (pyStrip step.keyword) impls acc.ctx).stdout with
        | none =>
          simp [processStep, hf, nextCtx, run_step, hs, hst] at hst ⊢
          simp_all [run_step]
        | some s =>
          simp [processStep, hf, nextCtx, run_step, hs] at hst ⊢
          simp_all [run_step]
      · simp [processStep, hf, nextCtx, run_step, hs]
      · simp [processStep, hf, nextCtx, run_step, hs]
  refine ⟨run_step_stdout_ne_empty o step.text (pyStrip step.keyword) impls acc.ctx,
    hctx, ?_⟩
  intro k
  by_cases hk : k = "PREVIOUS_STEP_STDOUT"
  · exact Or.inl hk
  · right
    rw [hctx]
    unfold nextCtx
    cases hf : acc.failed with
    | true => rfl
    | false =>
      rcases runStepGo_status o step.text (pyStrip (pyStrip step.keyword ++ " " ++ step.text))
          acc.ctx impls with hs | hs | hs
      · cases hst : (run_step o step.text (pyStrip step.keyword) impls acc.ctx).stdout with
        | none =>
          have hs' : (run_step o step.text (pyStrip step.keyword) impls acc.ctx).status =
              Status.passed := hs
          simp only [hs', hst, if_false, Bool.false_eq_true]
        | some s =>
          have hs' : (run_step o step.text (pyStrip step.keyword) impls acc.ctx).status =
              Status.passed := hs
          simp only [hs', hst, if_false, Bool.false_eq_true]
          exact dictLookup_insert_ne k _ _ acc.ctx hk
      all_goals
        have hs' : (run_step o step.text (pyStrip step.keyword) impls acc.ctx).status = _ := hs
        simp only [hs', if_false, Bool.false_eq_true]

/-! ## Exit codes -/

/-- Every scenario result the feature loop emits satisfies the
status-iff-steps characterization. -/
theorem foldScenarios_mem (o : ShellOracle) (impls : List (String × String))
    (children : List GScenario) (acc : List ScenarioResult × Summary)
    (hacc : ∀ res ∈ acc.1,
      (res.status = ScStatus.passed ↔
        ∀ r ∈ res.steps, r.outcome.status = Status.passed)) :
    ∀ res ∈ (children.foldl
        (fun acc sc =>
          let rs := runScenario o impls sc acc.2
          (acc.1 ++ [rs.1], rs.2)) acc).1,
      (res.status = ScStatus.passed ↔
        ∀ r ∈ res.steps, r.outcome.status = Status.passed) := by
  induction children generalizing acc with
  | nil => exact hacc
  | cons sc scs ih =>
    simp only [List.foldl_cons]
    apply ih
    intro res hres
    rcases List.mem_append.1 hres with hres | hres
    · exact hacc res hres
    · rw [List.mem_singleton.1 hres]
      exact runScenario_status_iff o impls sc acc.2

/-- When no scenario failed, no step came back `undefined` (an undefined
step always fails its scenario). -/
theorem scFailed_zero_undefined_zero (o : ShellOracle)
    (impls : List (String × String)) (f : GFeature)
    (h : (run_feature o impls f).2.scFailed = 0) :
    (run_feature o impls f).2.stUndefined = 0 := by
  have hmem : ∀ res ∈ (run_feature o impls f).1,
      (res.status = ScStatus.passed ↔
        ∀ r ∈ res.steps, r.outcome.status = Status.passed) := by
    unfold run_feature
    exact foldScenarios_mem o impls f.children ([], zeroSummary)
      (by intro res hres; cases hres)
  rw [run_feature_summary] at h ⊢
  simp only [recomputeSummary] at h ⊢
  rw [List.countP_eq_zero] at h
  unfold statusCount
  rw [List.countP_eq_zero]
  intro step hstep
  obtain ⟨l, hl, hstepl⟩ := List.mem_flatten.1 hstep
  obtain ⟨res, hres, rfl⟩ := List.mem_map.1 hl
  have hnotf : res.status ≠ ScStatus.failed := by
    intro hcon
    exact h res hres (by simp [hcon])
  have hpassed : res.status = ScStatus.passed := by
    cases hst : res.status
    · rfl
    · exact absurd hst hnotf
  have := (hmem res hres).1 hpassed step hstepl
  simp [this]

/-- C8 counterexample: the run with no implementation files at all exits
with code 1, and so does the run whose feature document fails to parse —
neither produces a code distinct from both 0 and 1. -/
theorem c8_no_distinct_exit_codes :
    mainExitCode oZero [] (ParseOutcome.parsed ⟨"f", []⟩) = 1 ∧
    mainExitCode oZero [["IMPLEMENTS p", "echo hi"]] (ParseOutcome.failed "Parser errors") = 1 := by
  exact ⟨rfl, rfl⟩

/-- C8 amended: the only exit codes are 0 and 1.  The exit code is 0
exactly when implementation files were found, implementations were loaded,
the feature document parsed (a parse failure still aborts before any step
executes) and there are zero scenario failures — in which case there are
also zero undefined steps, an undefined step always failing its scenario.
Missing implementation files and parse failures exit with the same code 1
as ordinary failures, not with distinct codes. -/
theorem exit_code_characterization (o : ShellOracle) (files : List (List String))
    (doc : ParseOutcome) :
    (mainExitCode o files doc = 0 ∨ mainExitCode o files doc = 1) ∧
    (mainExitCode o files doc = 0 ↔
      files ≠ [] ∧ (load_all_implementations files).1 ≠ [] ∧
      ∃ f, doc = ParseOutcome.parsed f ∧
        (run_feature o (load_all_implementations files).1 f).2.scFailed = 0 ∧
        (run_feature o (load_all_implementations files).1 f).2.stUndefined = 0) := by
  unfold mainExitCode
  by_cases hfe : files = []
  · rw [if_pos hfe]
    refine ⟨Or.inr rfl, ?_⟩
    constructor
    · intro h; cases h
    · rintro ⟨hne, -⟩; exact absurd hfe hne
  · rw [if_neg hfe]
    by_cases him : (load_all_implementations files).1 = []
    · rw [if_pos him]
      refine ⟨Or.inr rfl, ?_⟩
      constructor
      · intro h; cases h
      · rintro ⟨-, hne, -⟩; exact absurd him hne
    · rw [if_neg him]
      cases doc with
      | failed m =>
        refine ⟨Or.inr rfl, ?_⟩
        constructor
        · intro h; cases h
        · rintro ⟨-, -, f, hf, -⟩; cases hf
      | parsed f =>
        simp only [run_gherkin_file]
        by_cases hsc : 0 < (run_feature o (load_all_implementations files).1 f).2.scFailed
        · rw [if_pos hsc]
          refine ⟨Or.inr rfl, ?_⟩
          constructor
          · intro h; cases h
          · rintro ⟨-, -, f', hf', hz, -⟩
            cases hf'
            omega
        · rw [if_neg hsc]
          have hz : (run_feature o (load_all_implementations files).1 f).2.scFailed = 0 := by
            omega
          refine ⟨Or.inl rfl, ?_⟩
          constructor
          · intro _
            exact ⟨hfe, him, f, rfl, hz,
              scFailed_zero_undefined_zero o (load_all_implementations files).1 f hz⟩
          · intro _; rfl

end GherkinRunner
